import Mathlib

/-!
# Verification of the scollector storage layer

A shallow embedding of the `storage` package of czcorpus/scollector
(files `encoding.go`, `write.go`, `read.go`) together with proofs about
the embedded definitions.

Modelling conventions:

* Go byte slices are `List Nat` whose elements are below 256 wherever the
  encoders produce them (the encoders take `% 256` exactly where Go's
  fixed-width integer types force it).
* Go `uint32` / `uint16` values are `Nat` with explicit `% 2^32` / `% 2^16`
  at every point where Go arithmetic wraps; Go `int` is `Int`, and the Go
  conversion `uint32(i)` is `(i % 2^32).toNat` (two's-complement
  truncation, which `Int.emod` with a positive modulus reproduces).
* Go strings are their UTF-8 byte lists (`List Nat`); the bytes of the
  ASCII characters used by the code are space = 32 and underscore = 95,
  which in UTF-8 occur only as those characters.
* The badger store (an external collaborator, used through get / set /
  ordered prefix iteration inside transactions) is an association list
  of (key, value) byte lists kept sorted in strictly ascending
  lexicographic key order — exactly the iteration order badger
  guarantees.  `storeSet` is an order-preserving insert-or-replace,
  `storeGet` a lookup, and `scanPrefix` an in-order filter, which is
  what a badger prefix iterator returns.
* Fallible Go code returns `Except StoreErr _` or `Option`; a Go `panic`
  (including slice-bounds faults inside `binary.LittleEndian` accessors)
  is the error value `StoreErr.goPanic` / `Option.none`.
-/

/-- Errors surfaced by the embedded storage layer: badger's
`ErrKeyNotFound`, the "invalid frequency data length" error produced in
`read.go`, and a Go runtime panic (slice bounds / explicit `panic`). -/
inductive StoreErr where
  | keyNotFound
  | invalidLength
  | goPanic
deriving DecidableEq, Repr

instance {e a : Type} [DecidableEq e] [DecidableEq a] : DecidableEq (Except e a) :=
  fun x y =>
    match x, y with
    | .error u, .error v =>
        if h : u = v then .isTrue (by subst h; rfl)
        else .isFalse (by intro hh; injection hh; contradiction)
    | .error _, .ok _ => .isFalse (fun hh => Except.noConfusion hh)
    | .ok _, .error _ => .isFalse (fun hh => Except.noConfusion hh)
    | .ok u, .ok v =>
        if h : u = v then .isTrue (by subst h; rfl)
        else .isFalse (by intro hh; injection hh; contradiction)

/-! ## Key/value codec (`encoding.go`) -/

def LemmaToIDPrefix : Nat := 0x00

def SingleTokenPrefix : Nat := 0x01

def PairTokenPrefix : Nat := 0x02

def IDToLemmaPrefix : Nat := 0x03

def PoSLemmaToIDPrefix : Nat := 0x04

def IDToPoSLemmaPrefix : Nat := 0x05

/-- Little-endian 4-byte encoding of a `uint32`, as
`binary.LittleEndian.PutUint32` lays it out. -/
def encU32 (n : Nat) : List Nat :=
  [n % 256, n / 256 % 256, n / 65536 % 256, n / 16777216 % 256]

/-- Little-endian 2-byte encoding of a `uint16`
(`binary.LittleEndian.PutUint16`). -/
def encU16 (n : Nat) : List Nat :=
  [n % 256, n / 256 % 256]

/-- `binary.LittleEndian.Uint32`: reads the first four bytes; Go panics
when fewer than four bytes are present, which is `none` here. -/
def decU32 : List Nat → Option Nat
  | b0 :: b1 :: b2 :: b3 :: _ => some (b0 + 256 * b1 + 65536 * b2 + 16777216 * b3)
  | _ => none

/-- `binary.LittleEndian.Uint16` (none = Go bounds panic). -/
def decU16 : List Nat → Option Nat
  | b0 :: b1 :: _ => some (b0 + 256 * b1)
  | _ => none

/-- Total little-endian read of four bytes (0 when shorter); used only in
statements to name the numeric right identifier carried by a key. -/
def le32 (bs : List Nat) : Nat :=
  (decU32 bs).getD 0

/-- `encodeLemmaKey`: one tag byte, then the UTF-8 bytes of the lemma.
`strings.Split(lemma, " ")` has length 1 exactly when the lemma contains
no space byte (32), which selects `LemmaToIDPrefix`; otherwise the
`PoSLemmaToIDPrefix` tag is used. -/
def encodeLemmaKey (lm : List Nat) : List Nat :=
  (if lm.contains 32 then PoSLemmaToIDPrefix else LemmaToIDPrefix) :: lm

/-- `decodeFrequency` (`binary.LittleEndian.Uint32(data)`). -/
def decodeFrequency (data : List Nat) : Option Nat :=
  decU32 data

/-- `decodeFrequencyAndDist`: `Uint32(data[:4])` and `Uint16(data[4:])`.
Go panics unless the value holds at least 6 bytes (`data[:4]` needs 4,
`data[4:]` needs 2 more for `Uint16`). -/
def decodeFrequencyAndDist (data : List Nat) : Option (Nat × Nat) :=
  match data with
  | b0 :: b1 :: b2 :: b3 :: b4 :: b5 :: _ =>
      some (b0 + 256 * b1 + 65536 * b2 + 16777216 * b3, b4 + 256 * b5)
  | _ => none

/-- `mutualPositionToInt`: `32768 - int(v)` for a `uint16` argument. -/
def mutualPositionToInt (v : Nat) : Int :=
  32768 - (v : Int)

/-- `mutualPositionToUint16`: panics (`none`) when `v > 16384`, otherwise
converts `32768 + v` to `uint16` (Go integer conversion truncates
modulo 2^16). -/
def mutualPositionToUint16 (v : Int) : Option Nat :=
  if v > 16384 then none
  else some ((32768 + v) % 65536).toNat

def encodeFrequency (freq : Nat) : List Nat :=
  encU32 freq

def encodeFrequencyAndDist (freq dist : Nat) : List Nat :=
  encU32 freq ++ encU16 dist

def encodePairTokenKey (token1ID token2ID : Nat) : List Nat :=
  PairTokenPrefix :: (encU32 token1ID ++ encU32 token2ID)

/-- `tokenIDToKey` in `encoding.go`; `write.go`/`read.go` call it
`encodeSingleTokenKey`.  Modelled from the spec: tag `0x01` + 4-byte
little-endian TokenID (spec §6 key table), identical to `tokenIDToKey`. -/
def encodeSingleTokenKey (tokenID : Nat) : List Nat :=
  SingleTokenPrefix :: encU32 tokenID

/-- `tokenIDToValue` in `encoding.go`; callers name it `encodeTokenID`.
Modelled from the spec: a 4-byte little-endian TokenID value. -/
def encodeTokenID (tokenID : Nat) : List Nat :=
  encU32 tokenID

/-- `tokenIDToRIKey` in `encoding.go`; callers name it
`encodeIDToLemmaKey`.  Modelled from the spec: tag `0x03` + 4-byte
little-endian TokenID (reverse index). -/
def encodeIDToLemmaKey (tokenID : Nat) : List Nat :=
  IDToLemmaPrefix :: encU32 tokenID

/-! ## The ordered transactional store (external collaborator) -/

/-- Strict lexicographic byte-string order, badger's key order. -/
def byteListLt : List Nat → List Nat → Bool
  | [], [] => false
  | [], _ :: _ => true
  | _ :: _, [] => false
  | a :: as, b :: bs =>
      if a < b then true
      else if b < a then false
      else byteListLt as bs

/-- A store snapshot: (key, value) entries in ascending key order. -/
abbrev Store : Type := List (List Nat × List Nat)

/-- Entries pairwise strictly ascending — badger's iteration invariant. -/
def storeSorted (s : Store) : Prop :=
  List.Pairwise (fun a b => byteListLt a.1 b.1 = true) s

instance : DecidablePred storeSorted := fun s =>
  inferInstanceAs (Decidable (List.Pairwise _ s))

/-- `txn.Get`: the value stored under a key, if any. -/
def storeGet : Store → List Nat → Option (List Nat)
  | [], _ => none
  | e :: rest, k => if e.1 = k then some e.2 else storeGet rest k

/-- `txn.Set`: insert or replace, preserving ascending key order. -/
def storeSet : Store → List Nat → List Nat → Store
  | [], k, v => [(k, v)]
  | e :: rest, k, v =>
      if byteListLt k e.1 then (k, v) :: e :: rest
      else if k = e.1 then (k, v) :: rest
      else e :: storeSet rest k v

/-- A badger prefix iterator: all entries whose key starts with the
prefix, in store (ascending key) order. -/
def scanPrefix (s : Store) (p : List Nat) : List (List Nat × List Nat) :=
  s.filter (fun e => p.isPrefixOf e.1)

/-! ## Token identifier registry and write paths (`write.go`) -/

/-- `tokenIDSequence`: a `uint32` counter plus a session cache
(`map[string]uint32`, modelled as an association list where the most
recent binding is found first). -/
structure tokenIDSequence where
  value : Nat
  cache : List (List Nat × Nat)
deriving DecidableEq, Repr

/-- `NewTokenIDSequence()`. -/
def NewTokenIDSequence : tokenIDSequence :=
  { value := 0, cache := [] }

namespace tokenIDSequence

/-- `next`: increments the `uint32` counter (wrapping), panics (`none`)
when it wraps to zero, records the assignment. -/
def next (tseq : tokenIDSequence) (lm : List Nat) : Option (Nat × tokenIDSequence) :=
  let v := (tseq.value + 1) % 4294967296
  if v = 0 then none
  else some (v, { value := v, cache := (lm, v) :: tseq.cache })

/-- `recall`: the cached identifier, or the Go map zero value on a miss
(zero means "not found"; real ids start at 1).  `recall` is a Mathlib
command keyword, hence the name `recallID`. -/
def recallID (tseq : tokenIDSequence) (lm : List Nat) : Nat :=
  match tseq.cache.find? (fun e => e.1 = lm) with
  | some e => e.2
  | none => 0

end tokenIDSequence

/-- Go `uint32(i)` for an `int` argument: two's-complement truncation. -/
def uint32OfInt (i : Int) : Nat :=
  (i % 4294967296).toNat

/-- `StoreSingleTokenFreqTx`. -/
def StoreSingleTokenFreqTx (s : Store) (tokenID frequency : Nat) : Store :=
  storeSet s (encodeSingleTokenKey tokenID) (encodeFrequency frequency)

/-- `StorePairTokenFreqTx`: the pair-frequency write path persists a
4-byte frequency-only value. -/
def StorePairTokenFreqTx (s : Store) (token1ID token2ID frequency : Nat) : Store :=
  storeSet s (encodePairTokenKey token1ID token2ID) (encodeFrequency frequency)

/-- `StoreLemmaTx`: forward lemma→id mapping plus the reverse index,
written in the same transaction. -/
def StoreLemmaTx (s : Store) (lm : List Nat) (tokenID : Nat) : Store :=
  storeSet (storeSet s (encodeLemmaKey lm) (encodeTokenID tokenID))
    (encodeIDToLemmaKey tokenID) lm

/-- First loop of `StoreData`: one transaction per lemma, minting its
identifier and storing both mappings; `none` is the
`tokenIDSequence` overflow panic. -/
def storeDataLemmas (tseq : tokenIDSequence) (singleFreqs : List (List Nat × Int))
    (s : Store) : Option (tokenIDSequence × Store) :=
  match singleFreqs with
  | [] => some (tseq, s)
  | (lm, _) :: rest =>
      match tseq.next lm with
      | none => none
      | some (id, tseq') => storeDataLemmas tseq' rest (StoreLemmaTx s lm id)

/-- Second loop of `StoreData`: single-token frequencies, keyed by the
identifiers recalled from the registry. -/
def storeDataSingles (tseq : tokenIDSequence) (singleFreqs : List (List Nat × Int))
    (s : Store) : Store :=
  match singleFreqs with
  | [] => s
  | (lm, f) :: rest =>
      storeDataSingles tseq rest
        (StoreSingleTokenFreqTx s (tseq.recallID lm) (uint32OfInt f))

/-- Third loop of `StoreData`: pair frequencies at or above
`minPairFreq` (Go `int` comparison); below-threshold pairs are skipped. -/
def storeDataPairs (tseq : tokenIDSequence)
    (pairFreqs : List ((List Nat × List Nat) × Int)) (minPairFreq : Int)
    (s : Store) : Store :=
  match pairFreqs with
  | [] => s
  | (pr, f) :: rest =>
      if f < minPairFreq then storeDataPairs tseq rest minPairFreq s
      else
        storeDataPairs tseq rest minPairFreq
          (StorePairTokenFreqTx s (tseq.recallID pr.1) (tseq.recallID pr.2)
            (uint32OfInt f))

/-- `StoreData`: bulk load.  The Go maps are association lists here
(`map[string]int` and `map[[2]string]int`); map iteration order is
unspecified in Go, so every property proved below is insensitive to the
list order.  `none` is the registry overflow panic. -/
def StoreData (tseq : tokenIDSequence) (singleFreqs : List (List Nat × Int))
    (pairFreqs : List ((List Nat × List Nat) × Int)) (minPairFreq : Int)
    (s : Store) : Option (tokenIDSequence × Store) :=
  match storeDataLemmas tseq singleFreqs s with
  | none => none
  | some (tseq', s1) =>
      some (tseq', storeDataPairs tseq' pairFreqs minPairFreq
        (storeDataSingles tseq' singleFreqs s1))

/-- `getSingleTokenFreqTx` (`read.go`): point read of a single-token
frequency inside a transaction; `keyNotFound` on a miss, an explicit
length error when the stored value is not 4 bytes. -/
def getSingleTokenFreqTx (s : Store) (tokenID : Nat) : Except StoreErr Nat :=
  match storeGet s (encodeSingleTokenKey tokenID) with
  | none => .error .keyNotFound
  | some val =>
      if val.length = 4 then
        match decU32 val with
        | some f => .ok f
        | none => .error .goPanic
      else .error .invalidLength

/-- `IncrementSingleTokenFreq`: one read-modify-write transaction.
A missing counter reads as zero; any other read failure is surfaced.
The addition is `uint32` (wrapping) addition. -/
def IncrementSingleTokenFreq (s : Store) (tokenID increment : Nat) :
    Except StoreErr Store :=
  match getSingleTokenFreqTx s tokenID with
  | .error .keyNotFound =>
      .ok (storeSet s (encodeSingleTokenKey tokenID)
        (encodeFrequency ((0 + increment) % 4294967296)))
  | .error e => .error e
  | .ok currentFreq =>
      .ok (storeSet s (encodeSingleTokenKey tokenID)
        (encodeFrequency ((currentFreq + increment) % 4294967296)))

/-- `IncrementPairTokenFreq`: same read-modify-write shape for a pair
counter.  The raw value is decoded with `decodeFrequency` (no length
check in this path; a short value would be a Go panic). -/
def IncrementPairTokenFreq (s : Store) (token1ID token2ID increment : Nat) :
    Except StoreErr Store :=
  match storeGet s (encodePairTokenKey token1ID token2ID) with
  | none =>
      .ok (storeSet s (encodePairTokenKey token1ID token2ID)
        (encodeFrequency ((0 + increment) % 4294967296)))
  | some val =>
      match decodeFrequency val with
      | none => .error .goPanic
      | some currentFreq =>
          .ok (storeSet s (encodePairTokenKey token1ID token2ID)
            (encodeFrequency ((currentFreq + increment) % 4294967296)))

/-! ## Floating-point model

The collocation measures are computed in Go `float64`.  The claims below
depend only on which results are *finite* and on IEEE special-value
propagation (division by zero, `Log2(0) = -Inf`, `Log2(neg) = NaN`,
`Sqrt(neg) = NaN`, NaN absorption), which this model follows exactly,
matching the documented behaviour of Go's `math` package.  Finite values
carry an exact rational, represented as an unnormalised numerator /
positive-denominator pair (`Frac`) so that every operation reduces by
kernel computation; for `Log2` and `Sqrt` of a positive finite value the
payload is a strictly-monotone proxy (the argument itself), so
comparisons between two finite values of the same measure shape are
order-faithful.  Rounding and overflow of finite values are not
modelled; no theorem below depends on finite payloads numerically. -/

/-- An exact rational `num / den`; every constructor and operation below
keeps `den` positive. -/
structure Frac where
  num : Int
  den : Int
deriving DecidableEq, Repr

def Frac.ofNat (n : Nat) : Frac := ⟨n, 1⟩

def Frac.ofInt (i : Int) : Frac := ⟨i, 1⟩

def Frac.isZero (x : Frac) : Bool := x.num == 0

def Frac.isPos (x : Frac) : Bool := 0 < x.num

def Frac.isNeg (x : Frac) : Bool := x.num < 0

def Frac.add (x y : Frac) : Frac := ⟨x.num * y.den + y.num * x.den, x.den * y.den⟩

def Frac.neg (x : Frac) : Frac := ⟨-x.num, x.den⟩

def Frac.mul (x y : Frac) : Frac := ⟨x.num * y.num, x.den * y.den⟩

def Frac.div (x y : Frac) : Frac :=
  if 0 < y.num then ⟨x.num * y.den, x.den * y.num⟩
  else ⟨-(x.num * y.den), -(x.den * y.num)⟩

/-- `x < y` on fractions with positive denominators. -/
def Frac.lt (x y : Frac) : Bool := x.num * y.den < y.num * x.den

inductive FP where
  | fin (q : Frac)
  | pinf
  | ninf
  | nan
deriving DecidableEq, Repr

def FP.isFinite : FP → Bool
  | .fin _ => true
  | _ => false

def fofNat (n : Nat) : FP := .fin (Frac.ofNat n)

def fofInt (i : Int) : FP := .fin (Frac.ofInt i)

def fneg : FP → FP
  | .fin q => .fin q.neg
  | .pinf => .ninf
  | .ninf => .pinf
  | .nan => .nan

def fadd : FP → FP → FP
  | .fin a, .fin b => .fin (a.add b)
  | .fin _, .pinf => .pinf
  | .fin _, .ninf => .ninf
  | .pinf, .fin _ => .pinf
  | .ninf, .fin _ => .ninf
  | .pinf, .pinf => .pinf
  | .ninf, .ninf => .ninf
  | _, _ => .nan

def fsub (a b : FP) : FP := fadd a (fneg b)

def fmul : FP → FP → FP
  | .fin a, .fin b => .fin (a.mul b)
  | .fin a, .pinf => if a.isZero then .nan else if a.isPos then .pinf else .ninf
  | .fin a, .ninf => if a.isZero then .nan else if a.isPos then .ninf else .pinf
  | .pinf, .fin b => if b.isZero then .nan else if b.isPos then .pinf else .ninf
  | .ninf, .fin b => if b.isZero then .nan else if b.isPos then .ninf else .pinf
  | .pinf, .pinf => .pinf
  | .pinf, .ninf => .ninf
  | .ninf, .pinf => .ninf
  | .ninf, .ninf => .pinf
  | _, _ => .nan

/-- IEEE division.  Finite zeros here are always +0 (every zero reaching
a division in this code arises from a nonnegative integer conversion),
so `x / 0` carries the sign of `x`. -/
def fdiv : FP → FP → FP
  | .fin a, .fin b =>
      if ¬ b.isZero then .fin (a.div b)
      else if a.isZero then .nan
      else if a.isPos then .pinf else .ninf
  | .fin _, .pinf => .fin ⟨0, 1⟩
  | .fin _, .ninf => .fin ⟨0, 1⟩
  | .pinf, .fin b => if b.isNeg then .ninf else .pinf
  | .ninf, .fin b => if b.isNeg then .pinf else .ninf
  | _, _ => .nan

/-- Go `math.Log2`: `-Inf` at 0, `NaN` below 0, `+Inf` at `+Inf`;
finite positive arguments give a finite result (proxy payload). -/
def flog2 : FP → FP
  | .fin a => if a.isPos then .fin a else if a.isZero then .ninf else .nan
  | .pinf => .pinf
  | _ => .nan

/-- Go `math.Sqrt`: `NaN` below 0; finite nonnegative arguments give a
finite result (proxy payload). -/
def fsqrt : FP → FP
  | .fin a => if a.isNeg then .nan else .fin a
  | .pinf => .pinf
  | _ => .nan

/-- Go `>` on float64: false whenever either side is NaN. -/
def fgt : FP → FP → Bool
  | .nan, _ => false
  | _, .nan => false
  | .fin a, .fin b => Frac.lt b a
  | .fin _, .pinf => false
  | .fin _, .ninf => true
  | .pinf, .pinf => false
  | .pinf, _ => true
  | .ninf, _ => false

/-! ## Read paths and the collocation engine (`read.go`) -/

abbrev SortingMeasure := String

def sortByLogDice : SortingMeasure := "ldice"

def sortByTScore : SortingMeasure := "tscore"

def SortingMeasure.Validate (m : SortingMeasure) : Bool :=
  m == sortByLogDice || m == sortByTScore

/-- `GetLemmaID`: returns the token id together with the error slot of
the Go `(uint32, error)` pair.  The doc comment in `read.go` promises
`(0, nil)` on a miss, but the code propagates `txn.Get`'s
`ErrKeyNotFound` out of the `View` closure. -/
def GetLemmaID (s : Store) (lm : List Nat) : Nat × Option StoreErr :=
  match storeGet s (encodeLemmaKey lm) with
  | none => (0, some .keyNotFound)
  | some val =>
      match decU32 val with
      | some tokenID => (tokenID, none)
      | none => (0, some .goPanic)

/-- ASCII fragment of Go's `strings.TrimSpace` cutset (the lemma bytes
handled by this system are ASCII). -/
def isSpaceByte (b : Nat) : Bool :=
  b == 9 || b == 10 || b == 11 || b == 12 || b == 13 || b == 32

def trimSpace (bs : List Nat) : List Nat :=
  ((bs.dropWhile isSpaceByte).reverse.dropWhile isSpaceByte).reverse

/-- Body of the `GetLemmaIDsByPrefix` iterator loop: each matching entry
contributes `(TrimSpace(key[1:]), Uint32(value))`; a value shorter than
4 bytes is a Go panic inside the `Value` callback. -/
def lemmaScanLoop : List (List Nat × List Nat) → Except StoreErr (List (List Nat × Nat))
  | [] => .ok []
  | e :: rest =>
      match decU32 e.2 with
      | none => .error .goPanic
      | some tokenID =>
          match lemmaScanLoop rest with
          | .error err => .error err
          | .ok tl => .ok ((trimSpace (e.1.drop 1), tokenID) :: tl)

/-- `GetLemmaIDsByPrefix`: appends an underscore to the query when it
contains none, then prefix-scans the lemma key space. -/
def GetLemmaIDsByPrefix (s : Store) (lemmaPrefix : List Nat) :
    Except StoreErr (List (List Nat × Nat)) :=
  let p := if lemmaPrefix.contains 95 then lemmaPrefix else lemmaPrefix ++ [95]
  lemmaScanLoop (scanPrefix s (encodeLemmaKey p))

/-- `getLemmaByIDTxn`: reverse lookup, explicit not-found error. -/
def getLemmaByIDTxn (s : Store) (tokenID : Nat) : Except StoreErr (List Nat) :=
  match storeGet s (encodeIDToLemmaKey tokenID) with
  | none => .error .keyNotFound
  | some val => .ok (trimSpace val)

/-- `getSingleTokenFreqCopy`: same reads as `getSingleTokenFreqTx`
(`ValueCopy` versus `Value` makes no semantic difference here). -/
def getSingleTokenFreqCopy (s : Store) (tokenID : Nat) : Except StoreErr Nat :=
  getSingleTokenFreqTx s tokenID

structure Collocation where
  RawLemma : List Nat
  RawCollocate : List Nat
  LogDice : FP
  TScore : FP
  MutualDist : Int
deriving DecidableEq, Repr

/-- `logDice = 14 + log2(2*F(x,y) / (F(x)+F(y)))` exactly as computed in
`CalculateMeasures`; `2*pairFreq` and `targetFreq+secondFreq` are
`uint32` operations (wrapping) before the float conversions. -/
def logDiceFP (pairFreq targetFreq secondFreq : Nat) : FP :=
  fadd (fofNat 14)
    (flog2 (fdiv (fofNat ((2 * pairFreq) % 4294967296))
      (fofNat ((targetFreq + secondFreq) % 4294967296))))

/-- `tScore = (F(x,y) − F(x)*F(y)/corpusSize) / sqrt(F(x,y))` exactly as
computed in `CalculateMeasures`. -/
def tScoreFP (pairFreq targetFreq secondFreq : Nat) (corpusSize : Int) : FP :=
  fdiv
    (fsub (fofNat pairFreq)
      (fdiv (fmul (fofNat targetFreq) (fofNat secondFreq)) (fofInt corpusSize)))
    (fsqrt (fofNat pairFreq))

/-- The pair-iterator prefix built inside `CalculateMeasures`:
`PairTokenPrefix` byte followed by the little-endian TokenID. -/
def pairScanPrefix (tokenID : Nat) : List Nat :=
  PairTokenPrefix :: encU32 tokenID

/-- One iteration of the pair loop in `CalculateMeasures`:
`Uint32(key[5:9])` (bounds panic on a short key), the pair value decoded
as frequency+distance (bounds panic on a value shorter than 6 bytes),
then best-effort point reads — a missing partner frequency or reverse
lemma skips the pair (`.ok none`). -/
def processPairEntry (s : Store) (targetFreq : Nat) (corpusSize : Int)
    (rawLemma : List Nat) (e : List Nat × List Nat) :
    Except StoreErr (Option Collocation) :=
  match decU32 (e.1.drop 5) with
  | none => .error .goPanic
  | some secondLemmaID =>
      match decodeFrequencyAndDist e.2 with
      | none => .error .goPanic
      | some (pairFreq, pairDist) =>
          match getSingleTokenFreqCopy s secondLemmaID with
          | .error _ => .ok none
          | .ok secondFreq =>
              match getLemmaByIDTxn s secondLemmaID with
              | .error _ => .ok none
              | .ok secondLemma =>
                  .ok (some
                    { RawLemma := rawLemma
                      RawCollocate := secondLemma
                      LogDice := logDiceFP pairFreq targetFreq secondFreq
                      TScore := tScoreFP pairFreq targetFreq secondFreq corpusSize
                      MutualDist := mutualPositionToInt pairDist })

/-- The pair loop of `CalculateMeasures` over the scanned entries. -/
def pairLoop (s : Store) (targetFreq : Nat) (corpusSize : Int)
    (rawLemma : List Nat) : List (List Nat × List Nat) →
    Except StoreErr (List Collocation)
  | [] => .ok []
  | e :: rest =>
      match processPairEntry s targetFreq corpusSize rawLemma e with
      | .error err => .error err
      | .ok none => pairLoop s targetFreq corpusSize rawLemma rest
      | .ok (some c) =>
          match pairLoop s targetFreq corpusSize rawLemma rest with
          | .error err => .error err
          | .ok cs => .ok (c :: cs)

/-- The per-variant loop of `CalculateMeasures`: `F(x)` by point read
(failure aborts the whole query), then the ordered pair scan. -/
def variantLoop (s : Store) (corpusSize : Int) :
    List (List Nat × Nat) → Except StoreErr (List Collocation)
  | [] => .ok []
  | (value, tokenID) :: rest =>
      match getSingleTokenFreqTx s tokenID with
      | .error err => .error err
      | .ok targetFreq =>
          match pairLoop s targetFreq corpusSize value
              (scanPrefix s (pairScanPrefix tokenID)) with
          | .error err => .error err
          | .ok cs =>
              match variantLoop s corpusSize rest with
              | .error err => .error err
              | .ok more => .ok (cs ++ more)

def insertByGt (gt : Collocation → Collocation → Bool) (c : Collocation) :
    List Collocation → List Collocation
  | [] => [c]
  | d :: rest => if gt c d then c :: d :: rest else d :: insertByGt gt c rest

/-- `sort.Slice` with a strict-greater comparator: an unstable sort whose
only guarantee is comparator-descending order; this deterministic
insertion sort realises one such order (no claim depends on tie order). -/
def sortSliceByGt (gt : Collocation → Collocation → Bool) :
    List Collocation → List Collocation
  | [] => []
  | c :: rest => insertByGt gt c (sortSliceByGt gt rest)

/-- `CalculateMeasures`.  The three precondition checks panic
(`goPanic`); a not-found from the variant resolution is wrapped and
returned; the final slice truncation applies only when more than
`limit` results accumulated. -/
def CalculateMeasures (s : Store) (lm : List Nat) (corpusSize limit : Int)
    (sortBy : SortingMeasure) : Except StoreErr (List Collocation) :=
  if limit < 0 then .error .goPanic
  else if corpusSize < 0 then .error .goPanic
  else if ¬ sortBy.Validate then .error .goPanic
  else
    match GetLemmaIDsByPrefix s lm with
    | .error err => .error err
    | .ok variants =>
        match variantLoop s corpusSize variants with
        | .error err => .error err
        | .ok results =>
            let sorted :=
              if sortBy == sortByTScore then
                sortSliceByGt (fun i j => fgt i.TScore j.TScore) results
              else if sortBy == sortByLogDice then
                sortSliceByGt (fun i j => fgt i.LogDice j.LogDice) results
              else results
            .ok (if sorted.length > limit.toNat then sorted.take limit.toNat
              else sorted)

/-! ## Concrete stores used by the claim theorems

`exampleBase` holds lemmas `a_x` (id 1, bytes `[97,95,120]`) and `b_y`
(id 2, bytes `[98,95,121]`) with single frequencies 10 and 5. -/

def exampleBase : Store :=
  StoreSingleTokenFreqTx
    (StoreSingleTokenFreqTx
      (StoreLemmaTx (StoreLemmaTx [] [97, 95, 120] 1) [98, 95, 121] 2) 1 10) 2 5

/-- `exampleBase` plus a pair (1,2) ↦ 3 persisted by the write path
`StorePairTokenFreqTx` (a 4-byte frequency-only value). -/
def c1Store : Store := StorePairTokenFreqTx exampleBase 1 2 3

/-- `exampleBase` plus a 6-byte frequency+distance pair value whose
stored frequency is zero (as `encodeFrequencyAndDist` lays it out). -/
def c5Store : Store :=
  storeSet exampleBase (encodePairTokenKey 1 2) (encodeFrequencyAndDist 0 32768)

/-- Two pairs with the same left identifier 1 and right identifiers 1
and 256, persisted by the write path. -/
def c2Store : Store := StorePairTokenFreqTx (StorePairTokenFreqTx [] 1 1 7) 1 256 9

/-- Well-formed pair key space: every stored key tagged
`PairTokenPrefix` has the canonical 9-byte pair layout. -/
def pairWF (s : Store) : Prop :=
  ∀ e ∈ s, e.1.headI = PairTokenPrefix →
    e.1 = encodePairTokenKey (le32 (e.1.drop 1)) (le32 (e.1.drop 5))

instance : DecidablePred pairWF := fun s =>
  inferInstanceAs (Decidable (∀ e ∈ s, _ → _))

/-- Well-formed lemma key space: every stored entry under either lemma
tag has the canonical key shape (tag byte consistent with its lemma
bytes) and a canonical 4-byte TokenID value, as `StoreLemmaTx` writes
them. -/
def lemmaWF (s : Store) : Prop :=
  ∀ e ∈ s, (e.1.headI = LemmaToIDPrefix ∨ e.1.headI = PoSLemmaToIDPrefix) →
    (e.1 = encodeLemmaKey e.1.tail ∧ e.2 = encodeTokenID (le32 e.2))

instance : DecidablePred lemmaWF := fun s =>
  inferInstanceAs (Decidable (∀ e ∈ s, _ → _))

/-- N sequential calls of `IncrementSingleTokenFreq` on one key. -/
def repeatIncrSingle (s : Store) (tokenID v : Nat) : Nat → Except StoreErr Store
  | 0 => .ok s
  | n + 1 =>
      match IncrementSingleTokenFreq s tokenID v with
      | .error e => .error e
      | .ok s' => repeatIncrSingle s' tokenID v n

/-- N sequential calls of `IncrementPairTokenFreq` on one key. -/
def repeatIncrPair (s : Store) (token1ID token2ID v : Nat) : Nat → Except StoreErr Store
  | 0 => .ok s
  | n + 1 =>
      match IncrementPairTokenFreq s token1ID token2ID v with
      | .error e => .error e
      | .ok s' => repeatIncrPair s' token1ID token2ID v n

/-- Index of the first occurrence of a key in a key list. -/
def keyIndex (l : List Nat) : List (List Nat) → Nat
  | [] => 0
  | k :: ks => if k = l then 0 else keyIndex l ks + 1

/-! ## Theorems -/

theorem storeGet_storeSet_self (s : Store) (k v : List Nat) :
    storeGet (storeSet s k v) k = some v := by
  induction s with
  | nil => simp [storeSet, storeGet]
  | cons e rest ih =>
      by_cases hlt : byteListLt k e.1
      · simp [storeSet, hlt, storeGet]
      · by_cases heq : k = e.1
        · subst heq
          simp [storeSet, hlt, storeGet]
        · simp [storeSet, hlt, heq, storeGet, ih, Ne.symm heq]

theorem storeGet_storeSet_ne (s : Store) (k v k' : List Nat) (h : k' ≠ k) :
    storeGet (storeSet s k v) k' = storeGet s k' := by
  induction s with
  | nil => simp [storeSet, storeGet, Ne.symm h]
  | cons e rest ih =>
      by_cases hlt : byteListLt k e.1
      · simp [storeSet, hlt, storeGet, Ne.symm h]
      · by_cases heq : k = e.1
        · subst heq
          simp [storeSet, hlt, storeGet, Ne.symm h]
        · simp only [storeSet, if_neg hlt, if_neg heq, storeGet]
          by_cases h2 : e.1 = k'
          · simp [h2]
          · simp [h2, ih]

theorem storeGet_storeSet_isSome (s : Store) (k v k' : List Nat)
    (h : (storeGet s k').isSome) : (storeGet (storeSet s k v) k').isSome := by
  by_cases hk : k' = k
  · subst hk; simp [storeGet_storeSet_self]
  · rwa [storeGet_storeSet_ne s k v k' hk]

/-! ## Claim theorems -/

/-- C1: the pair-frequency write path and read path do NOT share one
value encoding.  `StorePairTokenFreqTx` persists the 4-byte
frequency-only variant, while `CalculateMeasures` decodes pair values
with `decodeFrequencyAndDist`, which requires at least 6 bytes; on a
write-path entry the read is a Go slice-bounds fault instead of
recovering the stored frequency.  Evaluated here on a store holding the
pair (1,2) ↦ 3: the stored value is `encodeFrequency 3`, its
frequency+distance decode faults, and the whole query faults. -/
theorem c1_pair_value_encoding_mismatch :
    storeGet c1Store (encodePairTokenKey 1 2) = some (encodeFrequency 3) ∧
    decodeFrequencyAndDist (encodeFrequency 3) = none ∧
    CalculateMeasures c1Store [97] 100 10 sortByLogDice = .error .goPanic := by
  decide

/-- C3: on a lemma with no stored mapping, `GetLemmaID` returns the
sentinel 0 together with badger's `ErrKeyNotFound` — it does not
suppress the error, contradicting its own doc comment ("In case the
lemma is not found, zero is returned (i.e. no error)").  Evaluated on
the empty store and lemma "dog". -/
theorem c3_miss_returns_error :
    GetLemmaID [] [100, 111, 103] = (0, some .keyNotFound) ∧
    (some StoreErr.keyNotFound ≠ (none : Option StoreErr)) := by
  decide

/-- C4 counterexample: the distance codec does not round-trip; decoding
the encoding of distance 1 yields -1, not 1. -/
theorem c4_counterexample :
    (mutualPositionToUint16 1).map mutualPositionToInt = some (-1) ∧
    (-1 : Int) ≠ 1 := by
  decide

/-- C4 (amended): for every distance d in [-16384, 16384] the codec
negates rather than round-trips:
`mutualPositionToInt (mutualPositionToUint16 d) = -d` (the encoder adds
the 32768 bias, the decoder subtracts the biased value from 32768). -/
theorem c4_roundtrip_negates (d : Int) (h1 : -16384 ≤ d) (h2 : d ≤ 16384) :
    (mutualPositionToUint16 d).map mutualPositionToInt = some (-d) := by
  unfold mutualPositionToUint16 mutualPositionToInt
  rw [if_neg (by omega)]
  have h3 : (32768 + d) % 65536 = 32768 + d :=
    Int.emod_eq_of_lt (by omega) (by omega)
  rw [h3]
  have h4 : (((32768 + d).toNat : Nat) : Int) = 32768 + d :=
    Int.toNat_of_nonneg (by omega)
  simp only [Option.map_some']
  rw [h4]
  congr 1
  omega

/-- Witness for C4 (amended) at d = 5. -/
theorem c4_roundtrip_negates_witness :
    (-16384 : Int) ≤ 5 ∧ (5 : Int) ≤ 16384 ∧
    (mutualPositionToUint16 5).map mutualPositionToInt = some (-5) :=
  ⟨by decide, by decide, c4_roundtrip_negates 5 (by decide) (by decide)⟩

/-- C8 counterexample: distance -20000 lies outside [-16384, 16384] yet
is encoded without a fatal failure (the guard in
`mutualPositionToUint16` only checks the upper bound). -/
theorem c8_counterexample :
    mutualPositionToUint16 (-20000) = some 12768 ∧
    (-20000 : Int) < -16384 := by
  decide

/-- C8 (amended): encoding a mutual distance fails fatally if and only
if the distance exceeds 16384; every distance at or below 16384 —
including every negative distance, with values below -32768 wrapping
modulo 2^16 — is encoded without a fatal failure. -/
theorem c8_panic_iff_gt_16384 (d : Int) :
    mutualPositionToUint16 d = none ↔ 16384 < d := by
  unfold mutualPositionToUint16
  by_cases h : 16384 < d
  · simp [h]
  · simp [h]

/-- C2 counterexample: two pairs with left identifier 1 and right
identifiers 1 and 256, persisted by the write path, are scanned in the
order [256, 1] — the little-endian key layout makes the prefix scan
lexicographic in the byte-reversed right identifier, not ascending
numeric. -/
theorem c2_counterexample :
    c2Store = [(encodePairTokenKey 1 256, encodeFrequency 9),
      (encodePairTokenKey 1 1, encodeFrequency 7)] ∧
    (scanPrefix c2Store (pairScanPrefix 1)).map (fun e => le32 (e.1.drop 5)) =
      [256, 1] ∧
    ¬ (256 : Nat) ≤ 1 := by
  decide

/-- C10 counterexample: with the stored lemma "a_b c"
(bytes `[97,95,98,32,99]`, which contains a space and is therefore keyed
under the `PoSLemmaToIDPrefix` tag) and the space-free, underscore-free
query "a", the stored lemma begins with query+"_" yet
`GetLemmaIDsByPrefix` returns nothing. -/
theorem c10_counterexample :
    GetLemmaIDsByPrefix (StoreLemmaTx [] [97, 95, 98, 32, 99] 1) [97] = .ok [] ∧
    List.isPrefixOf ([97] ++ [95]) [97, 95, 98, 32, 99] = true ∧
    ([97] : List Nat).contains 95 = false := by
  decide

/-- C5 counterexample: on a store holding a pair entry whose stored
frequency is zero (a 6-byte frequency+distance value, so the read path
decodes it), `CalculateMeasures` returns a result whose logDice and
tScore are both non-finite (-Inf): no guard against the zero stored
value exists, and the non-finite result is silently included. -/
theorem c5_counterexample :
    CalculateMeasures c5Store [97] 1000 10 sortByLogDice =
      .ok [{ RawLemma := [97, 95, 120], RawCollocate := [98, 95, 121],
             LogDice := FP.ninf, TScore := FP.ninf, MutualDist := 0 }] ∧
    decodeFrequencyAndDist (encodeFrequencyAndDist 0 32768) = some (0, 32768) ∧
    FP.ninf.isFinite = false := by
  decide

theorem fdiv_fin_zero_not_finite (q : Frac) :
    (fdiv (FP.fin q) (FP.fin ⟨0, 1⟩)).isFinite = false := by
  by_cases h0 : q.num = 0 <;> by_cases hp : 0 < q.num <;>
    simp [fdiv, Frac.isZero, Frac.isPos, h0, hp, FP.isFinite]

theorem logDice_zero_num_not_finite (m : Nat) :
    (fadd (fofNat 14) (flog2 (fdiv (fofNat 0) (fofNat m)))).isFinite = false := by
  by_cases h : m = 0
  · subst h; decide
  · simp [fofNat, Frac.ofNat, fdiv, Frac.isZero, Frac.isPos, Frac.div, flog2,
      fadd, FP.isFinite, h, Nat.pos_of_ne_zero h]

/-- C5 (amended): `CalculateMeasures` has no zero-frequency guard — for
every pair entry whose stored frequency is zero, the logDice and tScore
it computes (`logDiceFP` / `tScoreFP`, the exact expressions of
`read.go` lines 243-244) are non-finite, whatever the two single
frequencies and the corpus size are. -/
theorem c5_zero_freq_nonfinite (targetFreq secondFreq : Nat) (corpusSize : Int) :
    (logDiceFP 0 targetFreq secondFreq).isFinite = false ∧
    (tScoreFP 0 targetFreq secondFreq corpusSize).isFinite = false := by
  constructor
  · exact logDice_zero_num_not_finite ((targetFreq + secondFreq) % 4294967296)
  · unfold tScoreFP
    have hden : fsqrt (fofNat 0) = FP.fin ⟨0, 1⟩ := by decide
    rw [hden]
    cases hx : fdiv (fmul (fofNat targetFreq) (fofNat secondFreq)) (fofInt corpusSize) with
    | fin q =>
        show (fdiv (FP.fin (Frac.add ⟨0, 1⟩ q.neg)) (FP.fin ⟨0, 1⟩)).isFinite = false
        exact fdiv_fin_zero_not_finite _
    | pinf => decide
    | ninf => decide
    | nan => decide

theorem le32_encU32_append (n : Nat) (r : List Nat) :
    le32 (encU32 n ++ r) = n % 4294967296 := by
  simp [le32, decU32, encU32]
  omega

theorem encU32_mod (n : Nat) : encU32 (n % 4294967296) = encU32 n := by
  simp [encU32]
  omega

theorem isPrefixOf_pairKey (t a b : Nat) :
    (pairScanPrefix t).isPrefixOf (encodePairTokenKey a b) = true ↔
      t % 4294967296 = a % 4294967296 := by
  simp [pairScanPrefix, encodePairTokenKey, encU32, List.isPrefixOf,
    PairTokenPrefix]
  omega

/-- C2 (amended): over any sorted store whose pair-tagged keys are
well-formed, the prefix scan on (pair-tag byte + 4-byte left TokenID)
performed by `CalculateMeasures` returns exactly the entries whose key
encodes that left identifier — and no others — in ascending
*lexicographic byte* order of the little-endian key, a consequence of
the key layout and store order alone.  (Ascending *numeric*
right-identifier order, as originally claimed, fails: little-endian byte
order is not numeric order — see the counterexample.) -/
theorem c2_scan_exact_and_lex_order (s : Store) (t : Nat)
    (hs : storeSorted s) (hwf : pairWF s) (ht : t < 4294967296) :
    (∀ k v, ((k, v) ∈ scanPrefix s (pairScanPrefix t)) ↔
      ((k, v) ∈ s ∧ k = encodePairTokenKey t (le32 (k.drop 5)))) ∧
    List.Pairwise (fun a b => byteListLt a.1 b.1 = true)
      (scanPrefix s (pairScanPrefix t)) := by
  constructor
  · intro k v
    constructor
    · intro hmem
      have hsplit : (k, v) ∈ s ∧ (pairScanPrefix t).isPrefixOf k = true := by
        simpa [scanPrefix, List.mem_filter] using hmem
      obtain ⟨hmem_s, hpre⟩ := hsplit
      rw [List.isPrefixOf_iff_prefix] at hpre
      obtain ⟨tail, htail⟩ := hpre
      have hcons : k = PairTokenPrefix :: (encU32 t ++ tail) := by
        rw [← htail]; rfl
      have hhead : k.headI = PairTokenPrefix := by rw [hcons]; rfl
      have hk : k = encodePairTokenKey (le32 (k.drop 1)) (le32 (k.drop 5)) :=
        hwf (k, v) hmem_s hhead
      have hleft : le32 (k.drop 1) = t := by
        rw [hcons]
        simpa [le32_encU32_append] using Nat.mod_eq_of_lt ht
      refine ⟨hmem_s, ?_⟩
      rw [← hleft]
      exact hk
    · rintro ⟨hmem_s, hk⟩
      have hpre : (pairScanPrefix t).isPrefixOf k = true := by
        rw [hk, isPrefixOf_pairKey]
      simp [scanPrefix, List.mem_filter, hmem_s, hpre]
  · exact List.Pairwise.sublist (List.filter_sublist _) hs

/-- Witness for C2 (amended) on the two-pair store of the
counterexample. -/
theorem c2_scan_exact_and_lex_order_witness :
    storeSorted c2Store ∧ pairWF c2Store ∧ 1 < 4294967296 ∧
    ((∀ k v, ((k, v) ∈ scanPrefix c2Store (pairScanPrefix 1)) ↔
      ((k, v) ∈ c2Store ∧ k = encodePairTokenKey 1 (le32 (k.drop 5)))) ∧
    List.Pairwise (fun a b => byteListLt a.1 b.1 = true)
      (scanPrefix c2Store (pairScanPrefix 1))) :=
  ⟨by decide, by decide, by decide,
    c2_scan_exact_and_lex_order c2Store 1 (by decide) (by decide) (by decide)⟩

theorem headI_of_isPrefixOf_cons (a : Nat) (p k : List Nat)
    (h : (a :: p).isPrefixOf k = true) : k.headI = a := by
  rw [List.isPrefixOf_iff_prefix] at h
  obtain ⟨tail, htail⟩ := h
  rw [← htail]
  rfl

theorem isPrefixOf_lemmaKey (q l : List Nat) :
    (encodeLemmaKey (q ++ [95])).isPrefixOf (encodeLemmaKey l) = true ↔
      (List.isPrefixOf (q ++ [95]) l = true ∧ l.contains 32 = q.contains 32) := by
  by_cases hqm : 32 ∈ q <;> by_cases hlm : 32 ∈ l <;>
    simp [encodeLemmaKey, hqm, hlm, List.isPrefixOf, LemmaToIDPrefix,
      PoSLemmaToIDPrefix]

theorem lemmaScanLoop_ok (entries : List (List Nat × List Nat))
    (h : ∀ e ∈ entries, (decU32 e.2).isSome = true) :
    lemmaScanLoop entries =
      .ok (entries.map fun e => (trimSpace (e.1.drop 1), le32 e.2)) := by
  induction entries with
  | nil => rfl
  | cons e rest ih =>
      obtain ⟨t, ht⟩ : ∃ t, decU32 e.2 = some t :=
        Option.isSome_iff_exists.mp (h e (by simp))
      have hrest := ih (fun x hx => h x (by simp [hx]))
      simp [lemmaScanLoop, ht, hrest, le32]

theorem isPrefixOf_append_singleton_self (q : List Nat) (b : Nat) :
    (q ++ [b]).isPrefixOf q = false := by
  cases h : (q ++ [b]).isPrefixOf q
  · rfl
  · have hlen := (List.isPrefixOf_iff_prefix.mp h).length_le
    simp at hlen

/-- C10 (amended): for a query with no underscore, `GetLemmaIDsByPrefix`
appends an underscore and returns exactly the stored lemma entries whose
lemma bytes begin with query+"_" *and* whose space-status (hence tag
byte) matches the query's — a stored lemma containing a space is keyed
under the PoS tag and is not returned for a space-free query (see the
counterexample); a stored lemma exactly equal to the untagged query is
never returned. -/
theorem c10_underscore_prefix_characterization (s : Store) (q : List Nat)
    (hwf : lemmaWF s) (hq : q.contains 95 = false) :
    GetLemmaIDsByPrefix s q =
      .ok ((scanPrefix s (encodeLemmaKey (q ++ [95]))).map
        (fun e => (trimSpace (e.1.drop 1), le32 e.2))) ∧
    (∀ l vv, ((encodeLemmaKey l, vv) ∈ scanPrefix s (encodeLemmaKey (q ++ [95]))) ↔
      ((encodeLemmaKey l, vv) ∈ s ∧ List.isPrefixOf (q ++ [95]) l = true ∧
        l.contains 32 = q.contains 32)) ∧
    (∀ vv, ¬ ((encodeLemmaKey q, vv) ∈ scanPrefix s (encodeLemmaKey (q ++ [95])))) := by
  have hscan_some : ∀ e ∈ scanPrefix s (encodeLemmaKey (q ++ [95])),
      (decU32 e.2).isSome = true := by
    intro e he
    have hsplit : e ∈ s ∧ (encodeLemmaKey (q ++ [95])).isPrefixOf e.1 = true := by
      simpa [scanPrefix, List.mem_filter] using he
    have hhead : e.1.headI =
        (if (q ++ [95]).contains 32 then PoSLemmaToIDPrefix else LemmaToIDPrefix) :=
      headI_of_isPrefixOf_cons _ _ _ hsplit.2
    have hdisj : e.1.headI = LemmaToIDPrefix ∨ e.1.headI = PoSLemmaToIDPrefix := by
      cases h32 : (q ++ [95]).contains 32
      · rw [h32] at hhead
        exact Or.inl hhead
      · rw [h32] at hhead
        exact Or.inr hhead
    obtain ⟨_, hv⟩ := hwf e hsplit.1 hdisj
    rw [hv]
    simp [encodeTokenID, encU32, decU32]
  refine ⟨?_, ?_, ?_⟩
  · have hbranch : (if q.contains 95 then q else q ++ [95]) = q ++ [95] := by
      rw [hq]
      rfl
    show lemmaScanLoop
      (scanPrefix s (encodeLemmaKey (if q.contains 95 then q else q ++ [95]))) = _
    rw [hbranch]
    exact lemmaScanLoop_ok _ hscan_some
  · intro l vv
    constructor
    · intro hmem
      have hsplit : (encodeLemmaKey l, vv) ∈ s ∧
          (encodeLemmaKey (q ++ [95])).isPrefixOf (encodeLemmaKey l) = true := by
        simpa [scanPrefix, List.mem_filter] using hmem
      have hp := (isPrefixOf_lemmaKey q l).mp hsplit.2
      exact ⟨hsplit.1, hp.1, hp.2⟩
    · rintro ⟨hm, hp, hc⟩
      have hpre := (isPrefixOf_lemmaKey q l).mpr ⟨hp, hc⟩
      simp [scanPrefix, List.mem_filter, hm, hpre]
  · intro vv hmem
    have hsplit : (encodeLemmaKey q, vv) ∈ s ∧
        (encodeLemmaKey (q ++ [95])).isPrefixOf (encodeLemmaKey q) = true := by
      simpa [scanPrefix, List.mem_filter] using hmem
    have hp := ((isPrefixOf_lemmaKey q q).mp hsplit.2).1
    rw [isPrefixOf_append_singleton_self] at hp
    exact Bool.false_ne_true hp

/-- Witness for C10 (amended) on a store holding lemmas `a_x` (id 1) and
`b_y` (id 2), queried with "a". -/
theorem c10_underscore_prefix_characterization_witness :
    lemmaWF exampleBase ∧ ([97] : List Nat).contains 95 = false ∧
    (GetLemmaIDsByPrefix exampleBase [97] =
      .ok ((scanPrefix exampleBase (encodeLemmaKey ([97] ++ [95]))).map
        (fun e => (trimSpace (e.1.drop 1), le32 e.2))) ∧
    (∀ l vv, ((encodeLemmaKey l, vv) ∈
        scanPrefix exampleBase (encodeLemmaKey ([97] ++ [95]))) ↔
      ((encodeLemmaKey l, vv) ∈ exampleBase ∧
        List.isPrefixOf ([97] ++ [95]) l = true ∧
        l.contains 32 = ([97] : List Nat).contains 32)) ∧
    (∀ vv, ¬ ((encodeLemmaKey [97], vv) ∈
        scanPrefix exampleBase (encodeLemmaKey ([97] ++ [95]))))) :=
  ⟨by decide, by decide,
    c10_underscore_prefix_characterization exampleBase [97] (by decide) (by decide)⟩

theorem decU32_encU32 (n : Nat) : decU32 (encU32 n) = some (n % 4294967296) := by
  simp [decU32, encU32]
  omega

theorem encU32_length (n : Nat) : (encU32 n).length = 4 := rfl

theorem incrSingle_of_present (s : Store) (tokenID v c : Nat)
    (hc : storeGet s (encodeSingleTokenKey tokenID) = some (encodeFrequency c)) :
    IncrementSingleTokenFreq s tokenID v =
      .ok (storeSet s (encodeSingleTokenKey tokenID)
        (encodeFrequency ((c + v) % 4294967296))) := by
  have hmod : (c % 4294967296 + v) % 4294967296 = (c + v) % 4294967296 := by
    omega
  simp [IncrementSingleTokenFreq, getSingleTokenFreqTx, hc, encodeFrequency,
    decU32_encU32, encU32_length, hmod]

theorem incrPair_of_present (s : Store) (t1 t2 v c : Nat)
    (hc : storeGet s (encodePairTokenKey t1 t2) = some (encodeFrequency c)) :
    IncrementPairTokenFreq s t1 t2 v =
      .ok (storeSet s (encodePairTokenKey t1 t2)
        (encodeFrequency ((c + v) % 4294967296))) := by
  have hmod : (c % 4294967296 + v) % 4294967296 = (c + v) % 4294967296 := by
    omega
  simp [IncrementPairTokenFreq, hc, encodeFrequency, decodeFrequency,
    decU32_encU32, hmod]

theorem repeatIncrSingle_of_present (tokenID v : Nat) (n : Nat) :
    ∀ (s : Store) (c : Nat),
      storeGet s (encodeSingleTokenKey tokenID) = some (encodeFrequency c) →
      ∃ s', repeatIncrSingle s tokenID v n = .ok s' ∧
        storeGet s' (encodeSingleTokenKey tokenID) =
          some (encodeFrequency ((c + n * v) % 4294967296)) := by
  induction n with
  | zero =>
      intro s c hc
      refine ⟨s, rfl, ?_⟩
      rw [hc]
      simp [encodeFrequency, encU32_mod]
  | succ n ih =>
      intro s c hc
      obtain ⟨s', hrun, hget⟩ :=
        ih (storeSet s (encodeSingleTokenKey tokenID)
          (encodeFrequency ((c + v) % 4294967296))) ((c + v) % 4294967296)
          (storeGet_storeSet_self _ _ _)
      refine ⟨s', ?_, ?_⟩
      · simp [repeatIncrSingle, incrSingle_of_present s tokenID v c hc, hrun]
      · rw [hget]
        have hmod : ((c + v) % 4294967296 + n * v) % 4294967296 =
            (c + (n + 1) * v) % 4294967296 := by
          rw [Nat.succ_mul]
          generalize n * v = k
          omega
        rw [hmod]

theorem repeatIncrPair_of_present (t1 t2 v : Nat) (n : Nat) :
    ∀ (s : Store) (c : Nat),
      storeGet s (encodePairTokenKey t1 t2) = some (encodeFrequency c) →
      ∃ s', repeatIncrPair s t1 t2 v n = .ok s' ∧
        storeGet s' (encodePairTokenKey t1 t2) =
          some (encodeFrequency ((c + n * v) % 4294967296)) := by
  induction n with
  | zero =>
      intro s c hc
      refine ⟨s, rfl, ?_⟩
      rw [hc]
      simp [encodeFrequency, encU32_mod]
  | succ n ih =>
      intro s c hc
      obtain ⟨s', hrun, hget⟩ :=
        ih (storeSet s (encodePairTokenKey t1 t2)
          (encodeFrequency ((c + v) % 4294967296))) ((c + v) % 4294967296)
          (storeGet_storeSet_self _ _ _)
      refine ⟨s', ?_, ?_⟩
      · simp [repeatIncrPair, incrPair_of_present s t1 t2 v c hc, hrun]
      · rw [hget]
        have hmod : ((c + v) % 4294967296 + n * v) % 4294967296 =
            (c + (n + 1) * v) % 4294967296 := by
          rw [Nat.succ_mul]
          generalize n * v = k
          omega
        rw [hmod]

/-- C7: both increment paths read the current counter inside one
transaction (not-found reads as zero, other read failures surface), add
the increment, and write the sum back; consequently N ≥ 1 sequential
increments of v on an initially absent counter — single-token and
pair-token alike — terminate without failure and leave exactly N×v
stored whenever N×v fits in 32 bits. -/
theorem c7_increment_accumulates (tokenID t1 t2 v N : Nat) (s sp : Store)
    (h1 : storeGet s (encodeSingleTokenKey tokenID) = none)
    (h2 : storeGet sp (encodePairTokenKey t1 t2) = none)
    (h3 : 1 ≤ N) (h4 : N * v < 4294967296) :
    (∃ s', repeatIncrSingle s tokenID v N = .ok s' ∧
      storeGet s' (encodeSingleTokenKey tokenID) =
        some (encodeFrequency (N * v))) ∧
    (∃ s', repeatIncrPair sp t1 t2 v N = .ok s' ∧
      storeGet s' (encodePairTokenKey t1 t2) =
        some (encodeFrequency (N * v))) := by
  obtain ⟨n, rfl⟩ : ∃ n, N = n + 1 := ⟨N - 1, by omega⟩
  have hNv : (v + n * v) % 4294967296 = (n + 1) * v := by
    rw [Nat.succ_mul] at h4 ⊢
    generalize hk : n * v = k at h4 ⊢
    omega
  constructor
  · have hfirst : IncrementSingleTokenFreq s tokenID v =
        .ok (storeSet s (encodeSingleTokenKey tokenID)
          (encodeFrequency ((0 + v) % 4294967296))) := by
      simp [IncrementSingleTokenFreq, getSingleTokenFreqTx, h1]
    obtain ⟨s', hrun, hget⟩ :=
      repeatIncrSingle_of_present tokenID v n
        (storeSet s (encodeSingleTokenKey tokenID)
          (encodeFrequency ((0 + v) % 4294967296))) ((0 + v) % 4294967296)
        (storeGet_storeSet_self _ _ _)
    simp only [Nat.zero_add] at hrun hget
    refine ⟨s', ?_, ?_⟩
    · simp [repeatIncrSingle, hfirst, hrun]
    · rw [hget]
      congr 1
      have : (v % 4294967296 + n * v) % 4294967296 = (v + n * v) % 4294967296 := by
        generalize n * v = k
        omega
      rw [this, hNv]
  · have hfirst : IncrementPairTokenFreq sp t1 t2 v =
        .ok (storeSet sp (encodePairTokenKey t1 t2)
          (encodeFrequency ((0 + v) % 4294967296))) := by
      simp [IncrementPairTokenFreq, h2]
    obtain ⟨s', hrun, hget⟩ :=
      repeatIncrPair_of_present t1 t2 v n
        (storeSet sp (encodePairTokenKey t1 t2)
          (encodeFrequency ((0 + v) % 4294967296))) ((0 + v) % 4294967296)
        (storeGet_storeSet_self _ _ _)
    simp only [Nat.zero_add] at hrun hget
    refine ⟨s', ?_, ?_⟩
    · simp [repeatIncrPair, hfirst, hrun]
    · rw [hget]
      congr 1
      have : (v % 4294967296 + n * v) % 4294967296 = (v + n * v) % 4294967296 := by
        generalize n * v = k
        omega
      rw [this, hNv]

/-- Witness for C7: three increments of 5 on token 7 (single) and on
pair (1,2), both from the empty store. -/
theorem c7_increment_accumulates_witness :
    storeGet [] (encodeSingleTokenKey 7) = none ∧
    storeGet [] (encodePairTokenKey 1 2) = none ∧
    1 ≤ 3 ∧ 3 * 5 < 4294967296 ∧
    ((∃ s', repeatIncrSingle [] 7 5 3 = .ok s' ∧
      storeGet s' (encodeSingleTokenKey 7) = some (encodeFrequency (3 * 5))) ∧
    (∃ s', repeatIncrPair [] 1 2 5 3 = .ok s' ∧
      storeGet s' (encodePairTokenKey 1 2) = some (encodeFrequency (3 * 5)))) :=
  ⟨by decide, by decide, by decide, by decide,
    c7_increment_accumulates 7 1 2 5 3 [] [] (by decide) (by decide) (by decide)
      (by decide)⟩

theorem keyIndex_inj (l l' : List Nat) :
    ∀ ks : List (List Nat), l ∈ ks → l' ∈ ks →
      keyIndex l ks = keyIndex l' ks → l = l' := by
  intro ks
  induction ks with
  | nil => intro h; cases h
  | cons k ks ih =>
      intro hl hl' heq
      by_cases h1 : k = l <;> by_cases h2 : k = l'
      · rw [← h1, h2]
      · rw [keyIndex, if_pos h1] at heq
        rw [keyIndex, if_neg h2] at heq
        cases heq
      · rw [keyIndex, if_neg h1] at heq
        rw [keyIndex, if_pos h2] at heq
        cases heq
      · have hl2 : l ∈ ks := by
          cases List.mem_cons.mp hl with
          | inl h => exact absurd h.symm h1
          | inr h => exact h
        have hl'2 : l' ∈ ks := by
          cases List.mem_cons.mp hl' with
          | inl h => exact absurd h.symm h2
          | inr h => exact h
        rw [keyIndex, if_neg h1, keyIndex, if_neg h2] at heq
        exact ih hl2 hl'2 (Nat.succ_injective heq)

theorem keyIndex_lt_length (l : List Nat) :
    ∀ ks : List (List Nat), l ∈ ks → keyIndex l ks < ks.length := by
  intro ks
  induction ks with
  | nil => intro h; cases h
  | cons k ks ih =>
      intro hl
      by_cases h1 : k = l
      · simp [keyIndex, h1]
      · have hl2 : l ∈ ks := by
          cases List.mem_cons.mp hl with
          | inl h => exact absurd h.symm h1
          | inr h => exact h
        simp only [keyIndex, if_neg h1, List.length_cons]
        exact Nat.succ_lt_succ (ih hl2)

theorem recallID_cons_ne (v w id : Nat) (cache : List (List Nat × Nat))
    (lm l : List Nat) (h : lm ≠ l) :
    tokenIDSequence.recallID ⟨v, (lm, id) :: cache⟩ l =
      tokenIDSequence.recallID ⟨w, cache⟩ l := by
  simp [tokenIDSequence.recallID, List.find?, h]

theorem recallID_cons_self (v id : Nat) (cache : List (List Nat × Nat))
    (lm : List Nat) :
    tokenIDSequence.recallID ⟨v, (lm, id) :: cache⟩ lm = id := by
  simp [tokenIDSequence.recallID, List.find?]

/-- Specification of the lemma-registration loop of `StoreData`: it
succeeds whenever the registry counter cannot wrap, advances the counter
by the number of lemmas, leaves unregistered lemmas at their previous
recall value, and (when the lemma list is duplicate-free) assigns the
identifier `previous counter + 1 + position`. -/
theorem storeDataLemmas_spec (singles : List (List Nat × Int)) :
    ∀ (tseq : tokenIDSequence) (s : Store),
      tseq.value + singles.length < 4294967296 →
      ∃ tseq' s',
        storeDataLemmas tseq singles s = some (tseq', s') ∧
        tseq'.value = tseq.value + singles.length ∧
        (∀ l, l ∉ singles.map (fun e => e.1) → tseq'.recallID l = tseq.recallID l) ∧
        ((singles.map (fun e => e.1)).Nodup → ∀ l, l ∈ singles.map (fun e => e.1) →
          tseq'.recallID l =
            tseq.value + 1 + keyIndex l (singles.map (fun e => e.1))) := by
  induction singles with
  | nil =>
      intro tseq s _
      exact ⟨tseq, s, rfl, by simp, fun l _ => rfl, by simp⟩
  | cons e rest ih =>
      intro tseq s h
      obtain ⟨lm, f⟩ := e
      simp only [List.length_cons] at h
      have hv : (tseq.value + 1) % 4294967296 = tseq.value + 1 :=
        Nat.mod_eq_of_lt (by omega)
      have hnext : tseq.next lm =
          some (tseq.value + 1, ⟨tseq.value + 1, (lm, tseq.value + 1) :: tseq.cache⟩) := by
        unfold tokenIDSequence.next
        rw [hv, if_neg (by omega)]
      obtain ⟨tseq', s', hrun, hval, hout, hin⟩ :=
        ih ⟨tseq.value + 1, (lm, tseq.value + 1) :: tseq.cache⟩
          (StoreLemmaTx s lm (tseq.value + 1)) (by simp; omega)
      refine ⟨tseq', s', ?_, ?_, ?_, ?_⟩
      · simp [storeDataLemmas, hnext, hrun]
      · rw [hval]
        simp
        omega
      · intro l hl
        simp only [List.map_cons, List.mem_cons, not_or] at hl
        rw [hout l hl.2]
        exact recallID_cons_ne _ tseq.value _ _ _ _ (Ne.symm hl.1)
      · intro hnd l hl
        simp only [List.map_cons, List.nodup_cons] at hnd
        simp only [List.map_cons, List.mem_cons] at hl
        rcases hl with hl | hl
        · subst hl
          rw [hout l hnd.1]
          rw [recallID_cons_self]
          simp [keyIndex]
        · have hne : lm ≠ l := fun hll => hnd.1 (hll ▸ hl)
          rw [hin hnd.2 l hl]
          show tseq.value + 1 + 1 + keyIndex l (List.map (fun e => e.1) rest) = _
          simp only [List.map_cons, keyIndex, if_neg hne]
          omega

theorem lemmaKey_ne_pairKey (lm : List Nat) (a b : Nat) :
    encodeLemmaKey lm ≠ encodePairTokenKey a b := by
  by_cases hc : 32 ∈ lm <;>
    simp [encodeLemmaKey, encodePairTokenKey, hc, LemmaToIDPrefix,
      PoSLemmaToIDPrefix, PairTokenPrefix]

theorem riKey_ne_pairKey (t a b : Nat) :
    encodeIDToLemmaKey t ≠ encodePairTokenKey a b := by
  simp [encodeIDToLemmaKey, encodePairTokenKey, IDToLemmaPrefix, PairTokenPrefix]

theorem singleKey_ne_pairKey (t a b : Nat) :
    encodeSingleTokenKey t ≠ encodePairTokenKey a b := by
  simp [encodeSingleTokenKey, encodePairTokenKey, SingleTokenPrefix, PairTokenPrefix]

theorem storeGet_StoreLemmaTx_pairKey (s : Store) (lm : List Nat) (id a b : Nat) :
    storeGet (StoreLemmaTx s lm id) (encodePairTokenKey a b) =
      storeGet s (encodePairTokenKey a b) := by
  unfold StoreLemmaTx
  rw [storeGet_storeSet_ne _ _ _ _ (riKey_ne_pairKey id a b).symm]
  rw [storeGet_storeSet_ne _ _ _ _ (lemmaKey_ne_pairKey lm a b).symm]

theorem storeDataLemmas_pairKey_frame (singles : List (List Nat × Int)) :
    ∀ (tseq : tokenIDSequence) (s : Store) (tseq' : tokenIDSequence) (s' : Store)
      (a b : Nat),
      storeDataLemmas tseq singles s = some (tseq', s') →
      storeGet s' (encodePairTokenKey a b) = storeGet s (encodePairTokenKey a b) := by
  induction singles with
  | nil =>
      intro tseq s tseq' s' a b h
      cases h
      rfl
  | cons e rest ih =>
      intro tseq s tseq' s' a b h
      obtain ⟨lm, f⟩ := e
      unfold storeDataLemmas at h
      cases hn : tseq.next lm with
      | none => rw [hn] at h; cases h
      | some idt =>
          rw [hn] at h
          rw [ih _ _ _ _ a b h]
          exact storeGet_StoreLemmaTx_pairKey s lm idt.1 a b

theorem storeDataSingles_pairKey_frame (singles : List (List Nat × Int)) :
    ∀ (tseq : tokenIDSequence) (s : Store) (a b : Nat),
      storeGet (storeDataSingles tseq singles s) (encodePairTokenKey a b) =
        storeGet s (encodePairTokenKey a b) := by
  induction singles with
  | nil => intro tseq s a b; rfl
  | cons e rest ih =>
      intro tseq s a b
      obtain ⟨lm, f⟩ := e
      unfold storeDataSingles
      rw [ih]
      unfold StoreSingleTokenFreqTx
      rw [storeGet_storeSet_ne _ _ _ _ (singleKey_ne_pairKey _ a b).symm]

theorem storeDataPairs_frame (tseq : tokenIDSequence) (m : Int) (K : List Nat) :
    ∀ (pairs : List ((List Nat × List Nat) × Int)) (s : Store),
      (∀ p ∈ pairs,
        encodePairTokenKey (tseq.recallID p.1.1) (tseq.recallID p.1.2) ≠ K) →
      storeGet (storeDataPairs tseq pairs m s) K = storeGet s K := by
  intro pairs
  induction pairs with
  | nil => intro s _; rfl
  | cons p rest ih =>
      intro s hk
      obtain ⟨pr, f⟩ := p
      unfold storeDataPairs
      by_cases hf : f < m
      · rw [if_pos hf]
        exact ih s (fun p hp => hk p (List.mem_cons_of_mem _ hp))
      · rw [if_neg hf]
        rw [ih _ (fun p hp => hk p (List.mem_cons_of_mem _ hp))]
        unfold StorePairTokenFreqTx
        exact storeGet_storeSet_ne _ _ _ _ (hk (pr, f) (List.mem_cons_self _ _)).symm

theorem storeDataPairs_isSome (tseq : tokenIDSequence) (m : Int) (K : List Nat) :
    ∀ (pairs : List ((List Nat × List Nat) × Int)) (s : Store),
      (storeGet s K).isSome = true →
      (storeGet (storeDataPairs tseq pairs m s) K).isSome = true := by
  intro pairs
  induction pairs with
  | nil => intro s h; exact h
  | cons p rest ih =>
      intro s h
      obtain ⟨pr, f⟩ := p
      unfold storeDataPairs
      by_cases hf : f < m
      · rw [if_pos hf]
        exact ih s h
      · rw [if_neg hf]
        exact ih _ (storeGet_storeSet_isSome _ _ _ _ h)

theorem storeDataPairs_target (tseq : tokenIDSequence) (m : Int)
    (pr : List Nat × List Nat) (f : Int) :
    ∀ (pairs : List ((List Nat × List Nat) × Int)) (s : Store),
      (pr, f) ∈ pairs →
      (pairs.map (fun p => p.1)).Nodup →
      (∀ p ∈ pairs, p.1 ≠ pr →
        encodePairTokenKey (tseq.recallID p.1.1) (tseq.recallID p.1.2) ≠
          encodePairTokenKey (tseq.recallID pr.1) (tseq.recallID pr.2)) →
      storeGet (storeDataPairs tseq pairs m s)
          (encodePairTokenKey (tseq.recallID pr.1) (tseq.recallID pr.2)) =
        (if f < m then
          storeGet s (encodePairTokenKey (tseq.recallID pr.1) (tseq.recallID pr.2))
        else some (encodeFrequency (uint32OfInt f))) := by
  intro pairs
  induction pairs with
  | nil => intro s h; cases h
  | cons p rest ih =>
      intro s hmem hnd hkeys
      simp only [List.map_cons, List.nodup_cons] at hnd
      rcases List.mem_cons.mp hmem with hp | hp
      · -- the head is the target pair
        obtain rfl := hp.symm
        have hrest : ∀ p ∈ rest,
            encodePairTokenKey (tseq.recallID p.1.1) (tseq.recallID p.1.2) ≠
              encodePairTokenKey (tseq.recallID pr.1) (tseq.recallID pr.2) := by
          intro p hpmem
          have hne : p.1 ≠ pr := by
            intro hEq
            have hm : p.1 ∈ List.map (fun p => p.1) rest :=
              List.mem_map_of_mem _ hpmem
            rw [hEq] at hm
            exact hnd.1 hm
          exact hkeys p (List.mem_cons_of_mem _ hpmem) hne
        unfold storeDataPairs
        by_cases hf : f < m
        · rw [if_pos hf, if_pos hf]
          exact storeDataPairs_frame tseq m _ rest s hrest
        · rw [if_neg hf, if_neg hf]
          rw [storeDataPairs_frame tseq m _ rest _ hrest]
          exact storeGet_storeSet_self _ _ _
      · -- the target pair is further down the list
        obtain ⟨q, fq⟩ := p
        have hqne : q ≠ pr := by
          intro hEq
          have hm : pr ∈ List.map (fun p => p.1) rest :=
            List.mem_map_of_mem (fun p => p.1) hp
          rw [← hEq] at hm
          exact hnd.1 hm
        have hkey_q : encodePairTokenKey (tseq.recallID q.1) (tseq.recallID q.2) ≠
            encodePairTokenKey (tseq.recallID pr.1) (tseq.recallID pr.2) :=
          hkeys (q, fq) (List.mem_cons_self _ _) hqne
        have hkeys' : ∀ p ∈ rest, p.1 ≠ pr →
            encodePairTokenKey (tseq.recallID p.1.1) (tseq.recallID p.1.2) ≠
              encodePairTokenKey (tseq.recallID pr.1) (tseq.recallID pr.2) :=
          fun p hpm => hkeys p (List.mem_cons_of_mem _ hpm)
        unfold storeDataPairs
        by_cases hf : fq < m
        · rw [if_pos hf]
          exact ih s hp hnd.2 hkeys'
        · rw [if_neg hf]
          rw [ih _ hp hnd.2 hkeys']
          by_cases hfm : f < m
          · rw [if_pos hfm, if_pos hfm]
            unfold StorePairTokenFreqTx
            exact storeGet_storeSet_ne _ _ _ _ hkey_q.symm
          · rw [if_neg hfm, if_neg hfm]

theorem pairKey_inj (a b a' b' : Nat) (ha : a < 4294967296) (hb : b < 4294967296)
    (ha' : a' < 4294967296) (hb' : b' < 4294967296) :
    encodePairTokenKey a b = encodePairTokenKey a' b' ↔ (a = a' ∧ b = b') := by
  simp [encodePairTokenKey, encU32]
  omega

/-- C6: after a bulk load via `StoreData` with minimum pair frequency m
over duplicate-free frequency tables whose pair members are all
registered lemmas and whose pair frequencies are 32-bit counts, starting
from an empty store: `StoreData` succeeds, every input pair with
frequency strictly below m has no pair-frequency entry, and every input
pair with frequency at or above m has an entry holding exactly the input
frequency. -/
theorem c6_bulk_threshold (singles : List (List Nat × Int))
    (pairs : List ((List Nat × List Nat) × Int)) (m : Int)
    (hnodupS : (singles.map (fun e => e.1)).Nodup)
    (hnodupP : (pairs.map (fun p => p.1)).Nodup)
    (hlen : singles.length < 4294967296)
    (hmem : ∀ p ∈ pairs, p.1.1 ∈ singles.map (fun e => e.1) ∧
      p.1.2 ∈ singles.map (fun e => e.1))
    (hfreq : ∀ p ∈ pairs, 0 ≤ p.2 ∧ p.2 < 4294967296) :
    ∃ tseq' s', StoreData NewTokenIDSequence singles pairs m [] = some (tseq', s') ∧
      ∀ pr f, (pr, f) ∈ pairs →
        ((f < m → storeGet s' (encodePairTokenKey (tseq'.recallID pr.1)
            (tseq'.recallID pr.2)) = none) ∧
         (m ≤ f → storeGet s' (encodePairTokenKey (tseq'.recallID pr.1)
            (tseq'.recallID pr.2)) = some (encodeFrequency f.toNat))) := by
  obtain ⟨tseq', s1, hrun, hval, hout, hin⟩ :=
    storeDataLemmas_spec singles NewTokenIDSequence [] (by simpa [NewTokenIDSequence] using hlen)
  refine ⟨tseq', storeDataPairs tseq' pairs m (storeDataSingles tseq' singles s1),
    ?_, ?_⟩
  · unfold StoreData
    rw [hrun]
  · have hid : ∀ l ∈ singles.map (fun e => e.1),
        tseq'.recallID l = 1 + keyIndex l (singles.map (fun e => e.1)) := by
      intro l hl
      have h := hin hnodupS l hl
      simpa [NewTokenIDSequence] using h
    have hbound : ∀ l ∈ singles.map (fun e => e.1),
        tseq'.recallID l < 4294967296 := by
      intro l hl
      rw [hid l hl]
      have hidx := keyIndex_lt_length l _ hl
      have hlenm : (singles.map (fun e => e.1)).length = singles.length := by
        simp
      omega
    have hinj : ∀ l ∈ singles.map (fun e => e.1),
        ∀ l' ∈ singles.map (fun e => e.1),
        tseq'.recallID l = tseq'.recallID l' → l = l' := by
      intro l hl l' hl' hEq
      rw [hid l hl, hid l' hl'] at hEq
      exact keyIndex_inj l l' _ hl hl' (by omega)
    intro pr f hprf
    have hm_pr := hmem (pr, f) hprf
    have hkeys : ∀ p ∈ pairs, p.1 ≠ pr →
        encodePairTokenKey (tseq'.recallID p.1.1) (tseq'.recallID p.1.2) ≠
          encodePairTokenKey (tseq'.recallID pr.1) (tseq'.recallID pr.2) := by
      intro p hp hne hEq
      have hm_p := hmem p hp
      rw [pairKey_inj _ _ _ _ (hbound _ hm_p.1) (hbound _ hm_p.2)
        (hbound _ hm_pr.1) (hbound _ hm_pr.2)] at hEq
      have h1 : p.1.1 = pr.1 := hinj _ hm_p.1 _ hm_pr.1 hEq.1
      have h2 : p.1.2 = pr.2 := hinj _ hm_p.2 _ hm_pr.2 hEq.2
      exact hne (Prod.ext h1 h2)
    have hpre : storeGet (storeDataSingles tseq' singles s1)
        (encodePairTokenKey (tseq'.recallID pr.1) (tseq'.recallID pr.2)) = none := by
      rw [storeDataSingles_pairKey_frame]
      rw [storeDataLemmas_pairKey_frame singles NewTokenIDSequence [] tseq' s1 _ _ hrun]
      rfl
    have htarget := storeDataPairs_target tseq' m pr f pairs
      (storeDataSingles tseq' singles s1) hprf hnodupP hkeys
    have hf := hfreq (pr, f) hprf
    constructor
    · intro hlt
      rw [htarget, if_pos hlt]
      exact hpre
    · intro hge
      rw [htarget, if_neg (by omega)]
      have hu : uint32OfInt f = f.toNat := by
        unfold uint32OfInt
        rw [Int.emod_eq_of_lt hf.1 hf.2]
      rw [hu]

/-- Witness for C6: lemmas x ↦ 2 and y ↦ 4; pairs (x,y) ↦ 5 and
(y,x) ↦ 1 with minimum 3 — the first is kept exactly, the second
dropped. -/
theorem c6_bulk_threshold_witness :
    (([([120], 2), ([121], 4)] : List (List Nat × Int)).map (fun e => e.1)).Nodup ∧
    (([((([120], [121])), 5), ((([121], [120])), 1)] :
      List ((List Nat × List Nat) × Int)).map (fun p => p.1)).Nodup ∧
    (∃ tseq' s', StoreData NewTokenIDSequence [([120], 2), ([121], 4)]
        [((([120], [121])), 5), ((([121], [120])), 1)] 3 [] = some (tseq', s') ∧
      ∀ pr f, (pr, f) ∈ ([((([120], [121])), 5), ((([121], [120])), 1)] :
          List ((List Nat × List Nat) × Int)) →
        ((f < 3 → storeGet s' (encodePairTokenKey (tseq'.recallID pr.1)
            (tseq'.recallID pr.2)) = none) ∧
         (3 ≤ f → storeGet s' (encodePairTokenKey (tseq'.recallID pr.1)
            (tseq'.recallID pr.2)) = some (encodeFrequency f.toNat)))) :=
  ⟨by decide, by decide,
    c6_bulk_threshold [([120], 2), ([121], 4)]
      [((([120], [121])), 5), ((([121], [120])), 1)] 3 (by decide) (by decide)
      (by decide) (by decide) (by decide)⟩

theorem storeDataPairs_writes_mem (tseq : tokenIDSequence) (m : Int)
    (pr : List Nat × List Nat) (f : Int) (hf : ¬ f < m) :
    ∀ (pairs : List ((List Nat × List Nat) × Int)) (s : Store),
      (pr, f) ∈ pairs →
      (storeGet (storeDataPairs tseq pairs m s)
        (encodePairTokenKey (tseq.recallID pr.1) (tseq.recallID pr.2))).isSome = true := by
  intro pairs
  induction pairs with
  | nil => intro s h; cases h
  | cons p rest ih =>
      intro s hmem
      rcases List.mem_cons.mp hmem with hp | hp
      · obtain rfl := hp.symm
        unfold storeDataPairs
        rw [if_neg hf]
        apply storeDataPairs_isSome
        unfold StorePairTokenFreqTx
        rw [storeGet_storeSet_self]
        rfl
      · obtain ⟨q, fq⟩ := p
        unfold storeDataPairs
        by_cases hfq : fq < m
        · rw [if_pos hfq]
          exact ih s hp
        · rw [if_neg hfq]
          exact ih _ hp

/-- C9: when a pair whose frequency meets the threshold names a lemma
that is not a key of the single-frequency table, `StoreData` does not
fail — the registry recall of the unregistered lemma yields the sentinel
0 and a pair-frequency entry keyed with TokenID 0 for that member is
persisted, so 0-keyed pair entries can exist in the store. -/
theorem c9_unregistered_sentinel_pair (singles : List (List Nat × Int))
    (pairs : List ((List Nat × List Nat) × Int)) (m : Int)
    (l1 l2 : List Nat) (f : Int)
    (hlen : singles.length < 4294967296)
    (hmem : ((l1, l2), f) ∈ pairs)
    (hl2 : l2 ∉ singles.map (fun e => e.1))
    (hf : ¬ f < m) :
    ∃ tseq' s', StoreData NewTokenIDSequence singles pairs m [] = some (tseq', s') ∧
      tseq'.recallID l2 = 0 ∧
      ∃ w, storeGet s' (encodePairTokenKey (tseq'.recallID l1) 0) = some w := by
  obtain ⟨tseq', s1, hrun, hval, hout, hin⟩ :=
    storeDataLemmas_spec singles NewTokenIDSequence []
      (by simpa [NewTokenIDSequence] using hlen)
  have hzero : tseq'.recallID l2 = 0 := by
    rw [hout l2 hl2]
    rfl
  refine ⟨tseq', storeDataPairs tseq' pairs m (storeDataSingles tseq' singles s1),
    ?_, hzero, ?_⟩
  · unfold StoreData
    rw [hrun]
  · have hw := storeDataPairs_writes_mem tseq' m (l1, l2) f hf pairs
      (storeDataSingles tseq' singles s1) hmem
    rw [show ((l1, l2) : List Nat × List Nat).2 = l2 from rfl,
      show ((l1, l2) : List Nat × List Nat).1 = l1 from rfl, hzero] at hw
    exact Option.isSome_iff_exists.mp hw

/-- Witness for C9: single table registers only x; the pair (x, z) with
frequency 5 and threshold 3 is persisted under (1, 0). -/
theorem c9_unregistered_sentinel_pair_witness :
    (([([120], 2)] : List (List Nat × Int)).length < 4294967296) ∧
    ((([120], [122]), (5 : Int)) ∈
      ([((([120], [122])), 5)] : List ((List Nat × List Nat) × Int))) ∧
    ([122] ∉ ([([120], 2)] : List (List Nat × Int)).map (fun e => e.1)) ∧
    ¬ (5 : Int) < 3 ∧
    (∃ tseq' s', StoreData NewTokenIDSequence [([120], 2)]
        [((([120], [122])), 5)] 3 [] = some (tseq', s') ∧
      tseq'.recallID [122] = 0 ∧
      ∃ w, storeGet s' (encodePairTokenKey (tseq'.recallID [120]) 0) = some w) :=
  ⟨by decide, by decide, by decide, by decide,
    c9_unregistered_sentinel_pair [([120], 2)] [((([120], [122])), 5)] 3
      [120] [122] 5 (by decide) (by decide) (by decide) (by decide)⟩
